import Mathlib

/-!
Verification of the spacetime-crawler4py crawler core against its design
specification.  The Python sources are shallowly embedded: pure functions
become Lean functions on `List Char` / `String` / `Nat` / `Int` / `ℚ`,
stateful components (the frontier, the duplicate checker) become explicit
state-passing functions, and code that can raise a Python exception returns
`Except PyErr`.  Wall-clock times are modelled as rationals.  Python's
floating-point cosine similarity is modelled in exact arithmetic (see
`cosSimGe`).
-/

deriving instance DecidableEq for Except

namespace Crawler

/-- Python exceptions that the modelled code can raise.  Only `ValueError`
(from `urllib.parse`) is reachable in the modelled fragment. -/
inductive PyErr where
  | valueError (msg : String)
deriving DecidableEq, Repr

/-! ## Character-level models of the Python `str` primitives

All URL and token machinery in the sources works on ASCII data (the crawler
strips or rejects everything else), so the character predicates are the
ASCII restrictions of Python's: `c.isalnum() and c.isascii()`,
`str.lower()`, `str.split()` whitespace, etc. -/

/-- Model of Python `c.isalnum() and c.isascii()`: ASCII letters and digits. -/
def pyIsAlnumAscii (c : Char) : Bool :=
  (65 ≤ c.toNat && c.toNat ≤ 90) || (97 ≤ c.toNat && c.toNat ≤ 122) ||
    (48 ≤ c.toNat && c.toNat ≤ 57)

/-- Model of Python `c.isascii() and c.isalpha()`: ASCII letters. -/
def pyIsAsciiAlpha (c : Char) : Bool :=
  (65 ≤ c.toNat && c.toNat ≤ 90) || (97 ≤ c.toNat && c.toNat ≤ 122)

/-- Model of Python `c.isdigit()` on ASCII data: ASCII digits. -/
def pyIsDigitAscii (c : Char) : Bool :=
  48 ≤ c.toNat && c.toNat ≤ 57

/-- Model of the ASCII whitespace recognised by Python `str.split()`
(space, tab, newline, carriage return, vertical tab, form feed).  The
tokenizer only ever splits text whose whitespace has already been
normalised to plain spaces, so the ASCII restriction is exact there. -/
def isPySpace (c : Char) : Bool :=
  c.toNat == 32 || c.toNat == 9 || c.toNat == 10 || c.toNat == 13 ||
    c.toNat == 11 || c.toNat == 12

/-- Model of Python `str.lower()` on one ASCII character. -/
def pyLower (c : Char) : Char :=
  if 65 ≤ c.toNat ∧ c.toNat ≤ 90 then Char.ofNat (c.toNat + 32) else c

/-- Lowercase a whole string (ASCII model of Python `str.lower()`). -/
def lowerStr (s : String) : String :=
  String.mk (s.data.map pyLower)

/-- Does the character list `l` start with `p`? (model of Python
`str.startswith` / slice comparison). -/
def startsWithL : List Char → List Char → Bool
  | _, [] => true
  | [], _ :: _ => false
  | c :: cs, d :: ds => c == d && startsWithL cs ds

/-- Does the character list `l` end with `p`? (model of Python
`str.endswith`). -/
def endsWithL (l p : List Char) : Bool :=
  startsWithL l.reverse p.reverse

/-- Model of Python `sub in s` substring containment. -/
def containsSub (sub : List Char) : List Char → Bool
  | [] => startsWithL [] sub
  | c :: rest => startsWithL (c :: rest) sub || containsSub sub rest

/-! ## Association lists

Python dicts (insertion ordered) are modelled as association lists. -/

/-- Lookup in an association list (first matching key). -/
def lookupA {α : Type} : List (String × α) → String → Option α
  | [], _ => none
  | (k, v) :: rest, key => if k = key then some v else lookupA rest key

/-- Lookup with a default, modelling Python `d.get(k, dflt)`. -/
def lookupD {α : Type} (l : List (String × α)) (k : String) (dflt : α) : α :=
  (lookupA l k).getD dflt

/-- Assignment `d[k] = v` in an insertion-ordered dict: replace the value in
place if the key exists, otherwise append. -/
def setA {α : Type} : List (String × α) → String → α → List (String × α)
  | [], k, v => [(k, v)]
  | (k', v') :: rest, k, v =>
    if k' = k then (k, v) :: rest else (k', v') :: setA rest k v

/-! ## `utils.normalize` (src/utils/__init__.py)

```python
def normalize(url):
    if url.endswith("/"):
        return url.rstrip("/")
    return url
``` -/

/-- Model of Python `url.rstrip("/")`: remove every trailing slash. -/
def rstripSlashes (l : List Char) : List Char :=
  (l.reverse.dropWhile (fun c => c == '/')).reverse

/-- Model of `utils.normalize`.  `url.endswith("/")` holds exactly when the
last character is `'/'`. -/
def normalize (url : String) : String :=
  if url.data.getLast? = some '/' then String.mk (rstripSlashes url.data)
  else url

/-! ## `utils.tokenizer.tokenize_string` (src/utils/tokenizer.py)

```python
def tokenize_string(text):
    if not text or not isinstance(text, str):
        return []
    normalized = ''.join(
        c if c.isalnum() and c.isascii() else (' ' if c.isascii() else '')
        for c in text
    )
    tokens = []
    for word in normalized.split():
        if word and all(c.isalnum() for c in word):
            tokens.append(word.lower())
    return tokens
```

In Lean, `text` is always a `str`, so the `isinstance` test is always true
and `not text` is `text = ""`.  The `all(c.isalnum() ...)` filter runs on
words that contain only ASCII alphanumerics (everything else was replaced
by a space or dropped), where Python's unicode `isalnum` coincides with
`pyIsAlnumAscii`. -/

/-- Model of the per-character normalisation: ASCII alphanumerics are kept,
other ASCII characters become a space, non-ASCII characters are dropped. -/
def normChars (l : List Char) : List Char :=
  l.filterMap (fun c =>
    if pyIsAlnumAscii c then some c
    else if c.toNat < 128 then some ' ' else none)

/-- Whitespace splitter (model of Python `str.split()` with no argument):
splits on runs of whitespace and never yields empty words.  `acc` holds the
current word, reversed. -/
def wordsAux (sp : Char → Bool) : List Char → List Char → List (List Char)
  | [], acc => if acc.isEmpty then [] else [acc.reverse]
  | c :: cs, acc =>
    if sp c then
      if acc.isEmpty then wordsAux sp cs [] else acc.reverse :: wordsAux sp cs []
    else wordsAux sp cs (c :: acc)

/-- Model of Python `s.split()`. -/
def pySplitWs (l : List Char) : List (List Char) :=
  wordsAux isPySpace l []

/-- Model of `tokenize_string`. -/
def tokenize_string (text : String) : List String :=
  if text = "" then []
  else
    ((pySplitWs (normChars text.data)).filter
        (fun w => !w.isEmpty && w.all pyIsAlnumAscii)).map
      (fun w => String.mk (w.map pyLower))

/-- Single-space join of a token list (the spec's
`tokenize_back_to_text`). -/
def joinWords : List (List Char) → List Char
  | [] => []
  | [w] => w
  | w :: x :: ws => w ++ ' ' :: joinWords (x :: ws)

/-- Join tokens with single spaces, as a `String`. -/
def joinTokens (ts : List String) : String :=
  String.mk (joinWords (ts.map String.data))

/-! ## Model of CPython `urllib.parse.urlparse`

The repository calls `urlparse` (an external standard-library collaborator)
from `get_urlhash`, `Frontier._get_domain` and both `is_valid` predicates.
The model follows CPython 3.10's `urlsplit`/`urlparse`: unsafe bytes
(tab/CR/LF) are removed, an optional scheme is split off, `//`-prefixed
authorities are split at the first `/`, `?` or `#`, a netloc with
unbalanced square brackets raises `ValueError("Invalid IPv6 URL")`,
fragment and query are split off in that order, and `urlparse`
additionally splits `;params` from the last path segment for schemes that
use parameters.  The NFKC-confusable netloc check (`_checknetloc`) accepts
every ASCII netloc unchanged; its rejection of certain non-ASCII netlocs
is not modelled (no claim depends on non-ASCII authorities). -/

/-- Result of `urlparse` (a `ParseResult` named tuple). -/
structure ParseResult where
  scheme : String
  netloc : String
  path : String
  params : String
  query : String
  fragment : String
deriving DecidableEq, Repr

/-- Characters CPython removes from a URL before parsing
(`_UNSAFE_URL_BYTES_TO_REMOVE = ["\t", "\r", "\n"]`). -/
def removeUnsafe (l : List Char) : List Char :=
  l.filter (fun c => !(c == '\t' || c == '\r' || c == '\n'))

/-- Characters allowed in a scheme
(`scheme_chars = letters + digits + "+-."`). -/
def isSchemeChar (c : Char) : Bool :=
  pyIsAlnumAscii c || c == '+' || c == '-' || c == '.'

/-- Split `scheme:` off the front, returning the lowercased scheme and the
remainder; the scheme stays empty unless the prefix before the first `:`
is a letter followed by scheme characters. -/
def splitScheme (l : List Char) : List Char × List Char :=
  match l.findIdx? (fun c => c == ':') with
  | some i =>
    if decide (0 < i) && (match l.head? with
                          | some c => pyIsAsciiAlpha c
                          | none => false) && (l.take i).all isSchemeChar then
      ((l.take i).map pyLower, l.drop (i + 1))
    else ([], l)
  | none => ([], l)

/-- Model of `_splitnetloc(url, 2)`: the netloc runs from after `//` to the
first `/`, `?` or `#`. -/
def splitNetloc (l : List Char) : List Char × List Char :=
  let rest := l.drop 2
  match rest.findIdx? (fun c => c == '/' || c == '?' || c == '#') with
  | some i => (rest.take i, rest.drop i)
  | none => (rest, [])

/-- Split the list at the first occurrence of `c`, dropping `c` (model of
Python `str.partition` as used for `#` and `?`); if `c` is absent the
second component is empty. -/
def splitOnceAt (c : Char) (l : List Char) : List Char × List Char :=
  match l.findIdx? (fun d => d == c) with
  | some i => (l.take i, l.drop (i + 1))
  | none => (l, [])

/-- Model of CPython `urlsplit`, returning
`(scheme, netloc, path, query, fragment)`. -/
def urlsplit (url : String) : Except PyErr (String × String × String × String × String) :=
  let l := removeUnsafe url.data
  let (scheme, rest1) := splitScheme l
  let (netloc, rest2) :=
    if startsWithL rest1 ['/', '/'] then splitNetloc rest1 else ([], rest1)
  if ('[' ∈ netloc ∧ ']' ∉ netloc) ∨ (']' ∈ netloc ∧ '[' ∉ netloc) then
    .error (.valueError "Invalid IPv6 URL")
  else
    let (rest3, fragment) := splitOnceAt '#' rest2
    let (path, query) := splitOnceAt '?' rest3
    .ok (String.mk scheme, String.mk netloc, String.mk path,
         String.mk query, String.mk fragment)

/-- Schemes for which `urlparse` splits `;params` off the path
(CPython `uses_params`). -/
def usesParams : List String :=
  ["", "ftp", "hdl", "http", "imap", "https", "shttp", "rtsp", "rtspu",
   "sip", "sips", "snews", "tel", "prospero"]

/-- Index of the last occurrence of `c` in `l` (model of Python `rfind`;
only called when `c` occurs). -/
def rfindIdx (l : List Char) (c : Char) : Nat :=
  match l.reverse.findIdx? (fun d => d == c) with
  | some j => l.length - 1 - j
  | none => 0

/-- Model of CPython `_splitparams`: split `;params` out of the last path
segment. -/
def splitparams (p : List Char) : List Char × List Char :=
  if '/' ∈ p then
    match (p.drop (rfindIdx p '/')).findIdx? (fun d => d == ';') with
    | some j =>
      let i := rfindIdx p '/' + j
      (p.take i, p.drop (i + 1))
    | none => (p, [])
  else
    match p.findIdx? (fun d => d == ';') with
    | some i => (p.take i, p.drop (i + 1))
    | none => (p, [])

/-- Model of CPython `urlparse`. -/
def urlparse (url : String) : Except PyErr ParseResult :=
  match urlsplit url with
  | .error e => .error e
  | .ok (scheme, netloc, path, query, fragment) =>
    if scheme ∈ usesParams ∧ ';' ∈ path.data then
      let (p, params) := splitparams path.data
      .ok ⟨scheme, netloc, String.mk p, String.mk params, query, fragment⟩
    else
      .ok ⟨scheme, netloc, path, "", query, fragment⟩

/-! ## SHA-256 (model of `hashlib.sha256(...).hexdigest()`)

`get_urlhash` hashes a formatted key string with SHA-256 and keys the URL
store by the hex digest.  The full FIPS 180-4 algorithm is implemented
here over `Nat` with explicit reduction modulo `2^32`. -/

/-- Truncate to a 32-bit word. -/
def w32 (x : Nat) : Nat := x % 4294967296

/-- Right rotation of a 32-bit word. -/
def rotr (n x : Nat) : Nat := w32 ((x >>> n) ||| (x <<< (32 - n)))

/-- SHA-256 `Ch` function. -/
def shaCh (x y z : Nat) : Nat := (x &&& y) ^^^ ((x ^^^ 4294967295) &&& z)

/-- SHA-256 `Maj` function. -/
def shaMaj (x y z : Nat) : Nat := (x &&& y) ^^^ (x &&& z) ^^^ (y &&& z)

/-- SHA-256 big sigma 0. -/
def bSig0 (x : Nat) : Nat := rotr 2 x ^^^ rotr 13 x ^^^ rotr 22 x

/-- SHA-256 big sigma 1. -/
def bSig1 (x : Nat) : Nat := rotr 6 x ^^^ rotr 11 x ^^^ rotr 25 x

/-- SHA-256 small sigma 0. -/
def sSig0 (x : Nat) : Nat := rotr 7 x ^^^ rotr 18 x ^^^ (x >>> 3)

/-- SHA-256 small sigma 1. -/
def sSig1 (x : Nat) : Nat := rotr 17 x ^^^ rotr 19 x ^^^ (x >>> 10)

/-- SHA-256 round constants (FIPS 180-4, in decimal). -/
def shaK : List Nat :=
  [1116352408, 1899447441, 3049323471, 3921009573, 961987163, 1508970993,
   2453635748, 2870763221, 3624381080, 310598401, 607225278, 1426881987,
   1925078388, 2162078206, 2614888103, 3248222580, 3835390401, 4022224774,
   264347078, 604807628, 770255983, 1249150122, 1555081692, 1996064986,
   2554220882, 2821834349, 2952996808, 3210313671, 3336571891, 3584528711,
   113926993, 338241895, 666307205, 773529912, 1294757372, 1396182291,
   1695183700, 1986661051, 2177026350, 2456956037, 2730485921, 2820302411,
   3259730800, 3345764771, 3516065817, 3600352804, 4094571909, 275423344,
   430227734, 506948616, 659060556, 883997877, 958139571, 1322822218,
   1537002063, 1747873779, 1955562222, 2024104815, 2227730452, 2361852424,
   2428436474, 2756734187, 3204031479, 3329325298]

/-- SHA-256 initial hash value (FIPS 180-4, in decimal). -/
def shaH0 : List Nat :=
  [1779033703, 3144134277, 1013904242, 2773480762,
   1359893119, 2600822924, 528734635, 1541459225]

/-- Big-endian byte encoding of `n` on `k` bytes. -/
def toBytesBE : Nat → Nat → List Nat
  | 0, _ => []
  | k + 1, n => toBytesBE k (n / 256) ++ [n % 256]

/-- SHA-256 padding: append `0x80`, zeros, then the 64-bit big-endian bit
length, reaching a multiple of 64 bytes. -/
def padMsg (msg : List Nat) : List Nat :=
  let z := (119 - msg.length % 64) % 64
  msg ++ 0x80 :: List.replicate z 0 ++ toBytesBE 8 (msg.length * 8)

/-- Pack bytes into big-endian 32-bit words. -/
def bytesToWords : List Nat → List Nat
  | b0 :: b1 :: b2 :: b3 :: rest =>
    (((b0 * 256 + b1) * 256 + b2) * 256 + b3) :: bytesToWords rest
  | _ => []

/-- Extend the 16-word message schedule by `k` more words. -/
def extendSchedule : Nat → List Nat → List Nat
  | 0, w => w
  | k + 1, w =>
    let n := w.length
    extendSchedule k
      (w ++ [w32 (sSig1 (w.getD (n - 2) 0) + w.getD (n - 7) 0 +
                  sSig0 (w.getD (n - 15) 0) + w.getD (n - 16) 0)])

/-- One SHA-256 compression round on the eight-word state. -/
def compressRound (st : List Nat) (kw : Nat × Nat) : List Nat :=
  match st with
  | [a, b, c, d, e, f, g, h] =>
    let t1 := w32 (h + bSig1 e + shaCh e f g + kw.1 + kw.2)
    let t2 := w32 (bSig0 a + shaMaj a b c)
    [w32 (t1 + t2), a, b, c, w32 (d + t1), e, f, g]
  | other => other

/-- Process one 64-byte block. -/
def processBlock (h : List Nat) (block : List Nat) : List Nat :=
  let w := extendSchedule 48 (bytesToWords block)
  let st := (shaK.zip w).foldl compressRound h
  (h.zip st).map (fun p => w32 (p.1 + p.2))

/-- Chop a byte list into 64-byte blocks (the first argument is fuel,
instantiated with the list length, so the recursion is structural and
reduces inside the kernel). -/
def chunksAux : Nat → List Nat → List (List Nat)
  | 0, _ => []
  | _ + 1, [] => []
  | fuel + 1, b :: rest => (b :: rest).take 64 :: chunksAux fuel ((b :: rest).drop 64)

/-- Chop a byte list into 64-byte blocks. -/
def chunks64 (l : List Nat) : List (List Nat) :=
  chunksAux l.length l

/-- Hex digit character (lowercase). -/
def hexChar (n : Nat) : Char :=
  if n < 10 then Char.ofNat (48 + n) else Char.ofNat (87 + n)

/-- Big-endian hex rendering of `n` on `k` digits. -/
def toHexBE : Nat → Nat → List Char
  | 0, _ => []
  | k + 1, n => toHexBE k (n / 16) ++ [hexChar (n % 16)]

/-- SHA-256 hex digest of a byte list (model of
`hashlib.sha256(bytes).hexdigest()`). -/
def sha256hex (msg : List Nat) : String :=
  String.mk
    ((((chunks64 (padMsg msg)).foldl processBlock shaH0).map (toHexBE 8)).foldr
      (· ++ ·) [])

/-- UTF-8 encoding of one character (model of `str.encode("utf-8")`). -/
def utf8EncodeChar (c : Char) : List Nat :=
  let n := c.toNat
  if n < 0x80 then [n]
  else if n < 0x800 then
    [0xC0 ||| (n >>> 6), 0x80 ||| (n &&& 0x3F)]
  else if n < 0x10000 then
    [0xE0 ||| (n >>> 12), 0x80 ||| ((n >>> 6) &&& 0x3F), 0x80 ||| (n &&& 0x3F)]
  else
    [0xF0 ||| (n >>> 18), 0x80 ||| ((n >>> 12) &&& 0x3F),
     0x80 ||| ((n >>> 6) &&& 0x3F), 0x80 ||| (n &&& 0x3F)]

/-- UTF-8 encoding of a string. -/
def utf8Bytes (s : String) : List Nat :=
  s.data.foldr (fun c acc => utf8EncodeChar c ++ acc) []

/-! ## `utils.get_urlhash` (src/utils/__init__.py)

```python
def get_urlhash(url):
    parsed = urlparse(url)
    # everything other than scheme.
    return sha256(
        f"{parsed.netloc}/{parsed.path}/{parsed.params}/"
        f"{parsed.query}/{parsed.fragment}".encode("utf-8")).hexdigest()
``` -/

/-- The formatted key string hashed by `get_urlhash`. -/
def hashKey (p : ParseResult) : String :=
  p.netloc ++ "/" ++ p.path ++ "/" ++ p.params ++ "/" ++ p.query ++ "/" ++
    p.fragment

/-- Model of `get_urlhash`; propagates the `ValueError` that `urlparse` can
raise. -/
def get_urlhash (url : String) : Except PyErr String :=
  match urlparse url with
  | .error e => .error e
  | .ok p => .ok (sha256hex (utf8Bytes (hashKey p)))

/-! ## `utils.duplicate_checker` (src/utils/duplicate_checker.py)

```python
def _to_vector(tokens):
    return dict(Counter(tokens))

def _cosine_sim(vec_a, vec_b):
    if not vec_a or not vec_b:
        return 0.0
    dot = sum(vec_a.get(k, 0) * vec_b.get(k, 0) for k in set(vec_a) & set(vec_b))
    norm_a = sum(v * v for v in vec_a.values()) ** 0.5
    norm_b = sum(v * v for v in vec_b.values()) ** 0.5
    if norm_a == 0 or norm_b == 0:
        return 0.0
    return dot / (norm_a * norm_b)

class DuplicateChecker(object):
    def __init__(self, n=1000, similarity_threshold=0.9):
        ...
        self._vectors = deque(maxlen=n)

    def _vectorize(self, text):
        tokens = tokenize_string(text)
        return _to_vector(tokens) if tokens else {}

    def is_duplicate(self, doc_text):
        vec = self._vectorize(doc_text)
        if not vec:
            return False
        with self._lock:
            for stored in self._vectors:
                if _cosine_sim(vec, stored) >= self.threshold:
                    return True
            self._vectors.append(vec)
            return False
```

A token-frequency vector (`dict(Counter(tokens))`) is an insertion-ordered
association list with pairwise-distinct keys and positive counts.  The
`for`/`return True` loop is `List.any`.  The deque with `maxlen=n` keeps
the last `n` appended vectors, evicting from the left. -/

/-- Token-frequency vector: token → count, in first-occurrence order. -/
abbrev Vec := List (String × Nat)

/-- Add one occurrence of `t` to a counter (model of `Counter` updating). -/
def bumpCount : Vec → String → Vec
  | [], t => [(t, 1)]
  | (k, c) :: rest, t =>
    if k = t then (k, c + 1) :: rest else (k, c) :: bumpCount rest t

/-- Model of `dict(Counter(tokens))`. -/
def counter (ts : List String) : Vec :=
  ts.foldl bumpCount []

/-- Model of `vec.get(k, 0)`. -/
def getD0 (v : Vec) (k : String) : Nat :=
  lookupD v k 0

/-- Dot product `sum(vec_a.get(k,0) * vec_b.get(k,0) for k in set(a) & set(b))`
(keys of `a` missing from `b` contribute 0, so summing over the keys of `a`
is the same sum). -/
def dotV (a b : Vec) : Nat :=
  (a.map (fun kv => kv.2 * getD0 b kv.1)).sum

/-- Squared Euclidean norm `sum(v * v for v in vec.values())`. -/
def normSq (a : Vec) : Nat :=
  (a.map (fun kv => kv.2 * kv.2)).sum

/-- Decides `_cosine_sim(a, b) >= t` in exact arithmetic.  The source
computes `dot / (norm_a * norm_b)` with `norm = s ** 0.5` in floating
point; in exact real arithmetic, for the non-degenerate branch (`dot ≥ 0`,
both squared norms positive), `dot / (√sa·√sb) ≥ t` holds iff `t ≤ 0` or
`dot² ≥ t²·sa·sb`, which is what is decided here.  The degenerate branches
return `0.0` in the source and are compared with `t` directly. -/
def cosSimGe (a b : Vec) (t : ℚ) : Bool :=
  if a = [] ∨ b = [] then decide ((0 : ℚ) ≥ t)
  else if normSq a = 0 ∨ normSq b = 0 then decide ((0 : ℚ) ≥ t)
  else
    decide (t ≤ 0) ||
      decide (((dotV a b : ℚ)) ^ 2 ≥ t ^ 2 * (normSq a : ℚ) * (normSq b : ℚ))

/-- State of a `DuplicateChecker`: capacity `n`, similarity threshold, and
the ring buffer of stored vectors, oldest first. -/
structure DuplicateChecker where
  n : Nat
  threshold : ℚ
  vectors : List Vec
deriving DecidableEq, Repr

/-- Model of `deque(maxlen=n).append`: append on the right, keep the last
`n` elements. -/
def pushEvict (vs : List Vec) (v : Vec) (n : Nat) : List Vec :=
  (vs ++ [v]).drop (vs.length + 1 - n)

/-- Model of `DuplicateChecker._vectorize`. -/
def vectorize (text : String) : Vec :=
  let ts := tokenize_string text
  if ts = [] then [] else counter ts

/-- Model of `DuplicateChecker.is_duplicate`, returning the result and the
updated state. -/
def is_duplicate (st : DuplicateChecker) (doc_text : String) :
    Bool × DuplicateChecker :=
  let vec := vectorize doc_text
  if vec = [] then (false, st)
  else if st.vectors.any (fun stored => cosSimGe vec stored st.threshold) then
    (true, st)
  else (false, { st with vectors := pushEvict st.vectors vec st.n })

/-! ## `scraper.is_valid` (src/scraper.py)

This is the URL admissibility predicate the Frontier imports
(`from scraper import is_valid`).  `TESTING_LIMIT = -1`, so the
testing-limit early return is dead code.  The `try` block catches only
`(TypeError, AttributeError)`; the `ValueError` that `urlparse` raises on
a netloc with unbalanced square brackets is NOT caught and propagates out
of `is_valid`, which the model renders as `Except.error`.

Regex semantics used by the source are modelled as follows (all on data
from which `urlparse` already removed tab/CR/LF, so `.`-vs-newline and
`$`-before-trailing-newline subtleties cannot arise):
* `^(.+\.)?BASE$` on the lowercased netloc matches iff the netloc is
  `BASE` or `<nonempty>.BASE`;
* `.*\.(EXT1|EXT2|...)$` on the lowercased path matches iff the path ends
  in `.EXT` for one of the alternatives;
* `\b\d{4}-\d{2}-\d{2}\b` is a digit-run scan with `\w = [A-Za-z0-9_]`
  word boundaries (ASCII model). -/

/-- The four allowed-domain suffixes from `ALLOWED_DOMAIN_PATTERNS`. -/
def allowedDomainBases : List String :=
  ["ics.uci.edu", "cs.uci.edu", "informatics.uci.edu", "stat.uci.edu"]

/-- Model of `any(pattern.match(domain) for pattern in
ALLOWED_DOMAIN_PATTERNS)` with patterns `^(.+\.)?BASE$`. -/
def matchesAllowedDomain (domain : String) : Bool :=
  allowedDomainBases.any (fun base =>
    domain == base ||
      (endsWithL domain.data ('.' :: base.data) &&
        decide (base.data.length + 2 ≤ domain.data.length)))

/-- The extension alternatives of the big path-extension regex in
`is_valid`, with `jpe?g` and `tiff?` expanded. -/
def pathExtList : List String :=
  ["css", "js", "bmp", "gif", "jpg", "jpeg", "ico", "png", "tif", "tiff",
   "mid", "mp2", "mp3", "mp4", "wav", "avi", "mov", "mpeg", "ram", "m4v",
   "mkv", "ogg", "ogv", "pdf", "ps", "eps", "tex", "ppt", "pptx", "doc",
   "docx", "xls", "xlsx", "names", "data", "dat", "exe", "bz2", "tar",
   "msi", "bin", "7z", "psd", "dmg", "iso", "epub", "dll", "cnf", "tgz",
   "sha1", "thmx", "mso", "arff", "rtf", "jar", "csv", "rm", "smil", "wmv",
   "swf", "wma", "zip", "rar", "gz", "webp", "avif", "svg", "webm", "flv",
   "woff", "woff2", "ttf", "otf", "eot", "img", "apk", "war", "sql", "db",
   "bak"]

/-- Model of `re.match(r".*\.(css|js|...)$", parsed.path.lower())`. -/
def pathExtMatch (pathLower : String) : Bool :=
  pathExtList.any (fun ext => endsWithL pathLower.data ('.' :: ext.data))

/-- `BINARY_EXTENSIONS` from src/scraper.py (each entry includes the dot). -/
def binaryExtensions : List String :=
  [".jpg", ".jpeg", ".png", ".gif", ".bmp", ".ico", ".tiff", ".tif",
   ".webp", ".avif", ".svg", ".psd",
   ".mp3", ".mp4", ".wav", ".avi", ".mov", ".mkv", ".ogg", ".ogv",
   ".webm", ".flv", ".wmv", ".wma", ".mid", ".m4v", ".mpeg", ".ram",
   ".pdf", ".doc", ".docx", ".ppt", ".pptx", ".xls", ".xlsx",
   ".zip", ".rar", ".gz", ".tar", ".bz2", ".7z", ".iso",
   ".exe", ".dmg", ".msi", ".bin", ".dll", ".jar",
   ".woff", ".woff2", ".ttf", ".otf", ".eot",
   ".css", ".js"]

/-- ASCII model of the regex word character `\w`. -/
def isWordChar (c : Char) : Bool :=
  pyIsAlnumAscii c || c == '_'

/-- Numeric value of an ASCII digit string (model of `int(s)` on digit
segments). -/
def digitsToNat (l : List Char) : Nat :=
  l.foldl (fun acc c => acc * 10 + (c.toNat - 48)) 0

/-- Path segments: `[s for s in path.split('/') if s]`. -/
def pathSegments (p : List Char) : List (List Char) :=
  (wordsAux (fun c => c == '/') p [])

/-- Does `\d{4}-\d{2}-\d{2}` match here (list starts at the candidate
match), with a right word boundary after the last digit? -/
def isoDateAt : List Char → Bool
  | a :: b :: c :: d :: h1 :: e :: f :: h2 :: g :: i :: rest =>
    pyIsDigitAscii a && pyIsDigitAscii b && pyIsDigitAscii c &&
    pyIsDigitAscii d && h1 == '-' && pyIsDigitAscii e && pyIsDigitAscii f &&
    h2 == '-' && pyIsDigitAscii g && pyIsDigitAscii i &&
    (match rest with
     | [] => true
     | r :: _ => !isWordChar r)
  | _ => false

/-- Model of `re.search(r"\b\d{4}-\d{2}-\d{2}\b", path)`: scan every
position whose predecessor is not a word character. -/
def isoDateScan : Bool → List Char → Bool
  | _, [] => false
  | prevWord, c :: rest =>
    (!prevWord && isoDateAt (c :: rest)) || isoDateScan (isWordChar c) rest

/-- Model of `scraper._is_calendar_path`. -/
def is_calendar_path (p : ParseResult) : Bool :=
  let path := (lowerStr p.path).data
  let segments := pathSegments path
  let pairs := segments.zip segments.tail
  pairs.any (fun sp =>
      sp.1.length == 4 && sp.1.all pyIsDigitAscii &&
      decide (1900 ≤ digitsToNat sp.1) && decide (digitsToNat sp.1 ≤ 2099) &&
      !sp.2.isEmpty && sp.2.all pyIsDigitAscii &&
      decide (1 ≤ digitsToNat sp.2) && decide (digitsToNat sp.2 ≤ 12)) ||
    isoDateScan false path ||
    (!p.query.data.isEmpty &&
      (["date", "year", "month", "day", "time", "timestamp", "ical"].any
        (fun s => containsSub s.data (lowerStr p.query).data)))

/-- Model of `scraper._has_file_extension_in_query`. -/
def has_file_extension_in_query (p : ParseResult) : Bool :=
  if p.query.data.isEmpty then false
  else
    let q := (lowerStr p.query).data
    (["do=media", "action=download", "action=export"].any
        (fun s => containsSub s.data q)) ||
      binaryExtensions.any (fun s => containsSub s.data q)

/-- Model of `scraper._is_wiki_trap`. -/
def is_wiki_trap (p : ParseResult) : Bool :=
  containsSub "doku.php".data (lowerStr p.path).data &&
    !p.query.data.isEmpty &&
    (["do=", "idx=", "sectok="].any
      (fun s => containsSub s.data (lowerStr p.query).data))

/-- Model of `scraper.is_valid`.  A `ValueError` raised by `urlparse`
escapes the `except (TypeError, AttributeError)` clause, so it is
propagated as `Except.error`. -/
def is_valid (url : String) : Except PyErr Bool :=
  match urlparse url with
  | .error e => .error e
  | .ok p =>
    if ¬(p.scheme = "http" ∨ p.scheme = "https") then .ok false
    else if p.netloc = "" then .ok false
    else if ¬matchesAllowedDomain (lowerStr p.netloc) then .ok false
    else if pathExtMatch (lowerStr p.path) then .ok false
    else if is_calendar_path p then .ok false
    else if has_file_extension_in_query p then .ok false
    else if is_wiki_trap p then .ok false
    else .ok true

/-! ## `crawler.frontier.Frontier` (src/crawler/frontier.py)

The frontier's mutable state is `self.save` (the persistent shelve:
urlhash → (url, completed)), `self.domain_queues` (hostname → deque of
URLs), `self.last_request_time` (hostname → timestamp of last dispatch)
and `self.active_workers`.  Timestamps are rationals.  The condition
variable only affects scheduling, not the state transitions, so the model
is the lock-held critical sections as pure state transformers.

`get_tbd_url` is a `while True` loop; one loop iteration is modelled by
`get_tbd_url_step`, which reads the clock twice: `now` (`time.time()` at
the top of the iteration) and `stamp` (the second `time.time()` used for
`self.last_request_time[best_domain]`).  A real monotone clock gives
`now ≤ stamp`. -/

/-- Frontier state. -/
structure Frontier where
  save : List (String × (String × Bool))
  domain_queues : List (String × List String)
  last_request_time : List (String × ℚ)
  active_workers : Int
deriving DecidableEq, Repr

/-- A frontier with nothing discovered yet (fresh start, empty seed list). -/
def emptyFrontier : Frontier :=
  ⟨[], [], [], 0⟩

/-- Append `url` to the deque of `domain`, creating the deque if absent
(model of the `if domain not in self.domain_queues: ... append` block). -/
def enqueueQ : List (String × List String) → String → String →
    List (String × List String)
  | [], d, u => [(d, [u])]
  | (d', q) :: rest, d, u =>
    if d' = d then (d', q ++ [u]) :: rest else (d', q) :: enqueueQ rest d u

/-- Pop the head of `domain`'s deque and delete the entry if it becomes
empty (the `popleft` plus the later `if not ...: del` cleanup). -/
def popQ : List (String × List String) → String → List (String × List String)
  | [], _ => []
  | (d', q) :: rest, d =>
    if d' = d then (if q.tail = [] then rest else (d', q.tail) :: rest)
    else (d', q) :: popQ rest d

/-- The scan of `self.domain_queues.items()`: first domain whose queue is
non-empty and whose elapsed time since last dispatch is at least the
delay; returns that domain and the head URL. -/
def scanFind (delay now : ℚ) (last : List (String × ℚ)) :
    List (String × List String) → Option (String × String)
  | [] => none
  | (d, q) :: rest =>
    match q with
    | [] => scanFind delay now last rest
    | u :: _ =>
      if delay ≤ now - lookupD last d 0 then some (d, u)
      else scanFind delay now last rest

/-- Minimum remaining cooldown over non-empty, not-ready queues (the
`shortest_wait` accumulator; it is only consulted when no domain is ready,
in which case the early `break` cannot have cut the loop short). -/
def shortestWait (delay now : ℚ) (last : List (String × ℚ)) :
    List (String × List String) → Option ℚ
  | [] => none
  | (d, q) :: rest =>
    if q = [] then shortestWait delay now last rest
    else
      let elapsed := now - lookupD last d 0
      if delay ≤ elapsed then shortestWait delay now last rest
      else
        match shortestWait delay now last rest with
        | none => some (delay - elapsed)
        | some w => some (min (delay - elapsed) w)

/-- Outcome of one iteration of the `while True` loop in `get_tbd_url`:
either a URL is dispatched (with the successor state), or the crawl is
finished (`return None`), or the iteration blocks on the condition
variable (`some t` = `wait(timeout=t)`; `none` = no wait branch taken,
the loop spins). -/
inductive GetOutcome where
  | dispatch (url domain : String) (f' : Frontier)
  | finished
  | wait (timeout : Option ℚ)
deriving DecidableEq, Repr

/-- One iteration of `Frontier.get_tbd_url`'s loop, with politeness delay
`delay` (`self.config.time_delay`), at clock readings `now` and `stamp`. -/
def get_tbd_url_step (delay : ℚ) (f : Frontier) (now stamp : ℚ) : GetOutcome :=
  match scanFind delay now f.last_request_time f.domain_queues with
  | some (d, u) =>
    .dispatch u d
      { f with
        domain_queues := popQ f.domain_queues d
        last_request_time := setA f.last_request_time d stamp
        active_workers := f.active_workers + 1 }
  | none =>
    let hasUrls := f.domain_queues.any (fun p => !p.2.isEmpty)
    if hasUrls = false ∧ f.active_workers = 0 then .finished
    else if hasUrls = false ∧ 0 < f.active_workers then .wait (some 1)
    else
      match shortestWait delay now f.last_request_time f.domain_queues with
      | some w => .wait (some w)
      | none => .wait none

/-- Model of `Frontier.add_url` (the source first rebinds
`url = normalize(url)`, written here by inlining `normalize url`).
`get_urlhash` runs before the lock is taken, so a `ValueError` leaves the
state unchanged (rendered as `Except.error`). -/
def add_url (f : Frontier) (url : String) : Except PyErr Frontier :=
  match get_urlhash (normalize url) with
  | .error e => .error e
  | .ok h =>
    if (lookupA f.save h).isSome then .ok f
    else
      match urlparse (normalize url) with
      | .error e => .error e
      | .ok p =>
        .ok { f with
              save := setA f.save h (normalize url, false)
              domain_queues := enqueueQ f.domain_queues p.netloc (normalize url) }

/-- Model of `Frontier.mark_url_complete`: stores `(url, True)` under the
hash of the (un-normalized) `url` — creating the record if the URL was
never seen — and decrements `active_workers` unconditionally. -/
def mark_url_complete (f : Frontier) (url : String) : Except PyErr Frontier :=
  match get_urlhash url with
  | .error e => .error e
  | .ok h =>
    .ok { f with
          save := setA f.save h (url, true)
          active_workers := f.active_workers - 1 }

/-! ### Traces of frontier operations

A crawl is a sequence of critical sections: loop iterations of
`get_tbd_url` (each with its two clock readings) interleaved with
`add_url` and `mark_url_complete` calls from workers. -/

/-- One frontier operation in a trace. -/
inductive Op where
  | get (now stamp : ℚ)
  | add (url : String)
  | mark (url : String)
deriving DecidableEq, Repr

/-- Apply one operation to the state.  Loop iterations that wait, the
finished signal, and operations that raise leave the state unchanged. -/
def applyOp (delay : ℚ) (f : Frontier) : Op → Frontier
  | .get now stamp =>
    match get_tbd_url_step delay f now stamp with
    | .dispatch _ _ f' => f'
    | _ => f
  | .add url =>
    match add_url f url with
    | .ok f' => f'
    | .error _ => f
  | .mark url =>
    match mark_url_complete f url with
    | .ok f' => f'
    | .error _ => f

/-- Run a list of operations. -/
def run (delay : ℚ) (f : Frontier) : List Op → Frontier
  | [] => f
  | op :: rest => run delay (applyOp delay f op) rest

/-- Clock sanity along a trace: every `get` iteration's two `time.time()`
readings are at least `t` and non-decreasing, where `t` is a lower bound
on the clock when the trace starts. -/
def ClockOK (t : ℚ) : List Op → Bool
  | [] => true
  | op :: rest =>
    match op with
    | .get now stamp =>
      decide (t ≤ now) && decide (now ≤ stamp) && ClockOK stamp rest
    | .add _ => ClockOK t rest
    | .mark _ => ClockOK t rest

/-- The recorded dispatch timestamps (`self.last_request_time[d]` values
written) for host `d` along a trace, in order. -/
def dispStamps (delay : ℚ) (f : Frontier) (d : String) : List Op → List ℚ
  | [] => []
  | op :: rest =>
    match op with
    | .get now stamp =>
      match get_tbd_url_step delay f now stamp with
      | .dispatch _ d' _ =>
        if d' = d then stamp :: dispStamps delay (applyOp delay f op) d rest
        else dispStamps delay (applyOp delay f op) d rest
      | _ => dispStamps delay (applyOp delay f op) d rest
    | _ => dispStamps delay (applyOp delay f op) d rest

/-- Count of successful dispatches and successful `mark_url_complete`
calls along a trace. -/
def opCounts (delay : ℚ) (f : Frontier) : List Op → Int × Int
  | [] => (0, 0)
  | op :: rest =>
    match op with
    | .get now stamp =>
      match get_tbd_url_step delay f now stamp with
      | .dispatch _ _ f' =>
        ((opCounts delay f' rest).1 + 1, (opCounts delay f' rest).2)
      | _ => opCounts delay f rest
    | .add url =>
      match add_url f url with
      | .ok f' => opCounts delay f' rest
      | .error _ => opCounts delay f rest
    | .mark url =>
      match mark_url_complete f url with
      | .ok f' => ((opCounts delay f' rest).1, (opCounts delay f' rest).2 + 1)
      | .error _ => opCounts delay f rest

/-! ## Theorems -/

/-- After `rstrip("/")`, the result cannot end in a slash. -/
theorem rstripSlashes_getLast_ne (l : List Char) :
    (rstripSlashes l).getLast? ≠ some '/' := by
  unfold rstripSlashes
  rw [List.getLast?_reverse]
  intro h
  have hd := List.head?_dropWhile_not (fun c => c == '/') l.reverse
  rw [h] at hd
  simp at hd

/-- C10: `normalize` is idempotent — a URL ending in `/` has all trailing
slashes removed in one call, and a URL not ending in `/` is returned
unchanged, so a second application is the identity. -/
theorem normalize_idempotent (url : String) :
    normalize (normalize url) = normalize url := by
  by_cases h : url.data.getLast? = some '/'
  · have h1 : normalize url = String.mk (rstripSlashes url.data) := by
      simp [normalize, h]
    rw [h1]
    unfold normalize
    rw [if_neg]
    exact rstripSlashes_getLast_ne url.data
  · have h1 : normalize url = url := by
      simp [normalize, h]
    rw [h1, h1]

/-- C6: `is_valid` does not absorb every malformed URL — `urlparse` raises
`ValueError("Invalid IPv6 URL")` on `"http://[::1"` (unbalanced bracket in
the netloc), and the `except (TypeError, AttributeError)` clause lets it
propagate out of `is_valid` instead of returning `False`. -/
theorem is_valid_raises_invalid_ipv6 :
    is_valid "http://[::1" = .error (.valueError "Invalid IPv6 URL") := by
  decide

/-- C3 counterexample: two URLs that differ only in their fragment get
different hashes from `get_urlhash` — the hash key includes
`parsed.fragment`, so the key is not fragment-stripped. -/
theorem urlhash_fragment_sensitive :
    urlparse "http://a/p#x" = .ok ⟨"http", "a", "/p", "", "", "x"⟩ ∧
    urlparse "http://a/p#y" = .ok ⟨"http", "a", "/p", "", "", "y"⟩ ∧
    get_urlhash "http://a/p#x" ≠ get_urlhash "http://a/p#y" :=
  ⟨by decide, by decide, by decide⟩

/-- C3 amended: `get_urlhash` is scheme-independent — it depends only on
the parsed netloc, path, params, query AND fragment, so two URLs whose
parses agree on those five components (the scheme may differ) hash
identically; but it is not fragment-stripped (see
`urlhash_fragment_sensitive`). -/
theorem urlhash_scheme_independent (u v : String) (pu pv : ParseResult)
    (hu : urlparse u = .ok pu) (hv : urlparse v = .ok pv)
    (hnet : pu.netloc = pv.netloc) (hpath : pu.path = pv.path)
    (hpar : pu.params = pv.params) (hq : pu.query = pv.query)
    (hfrag : pu.fragment = pv.fragment) :
    get_urlhash u = get_urlhash v := by
  unfold get_urlhash
  rw [hu, hv]
  simp [hashKey, hnet, hpath, hpar, hq, hfrag]

/-- Witness for `urlhash_scheme_independent`: the `http` and `https`
versions of the same URL hash identically. -/
theorem urlhash_scheme_independent_witness :
    get_urlhash "http://a/p" = get_urlhash "https://a/p" :=
  urlhash_scheme_independent "http://a/p" "https://a/p"
    ⟨"http", "a", "/p", "", "", ""⟩ ⟨"https", "a", "/p", "", "", ""⟩
    (by decide) (by decide) rfl rfl rfl rfl rfl

/-! ### Association-list lemmas -/

/-- Looking up the key just assigned returns the assigned value. -/
theorem lookupA_setA_self {α : Type} (l : List (String × α)) (k : String)
    (v : α) : lookupA (setA l k v) k = some v := by
  induction l with
  | nil => simp [setA, lookupA]
  | cons hd tl ih =>
    obtain ⟨k', v'⟩ := hd
    by_cases h : k' = k
    · subst h
      simp [setA, lookupA]
    · simp [setA, lookupA, h, ih]

/-- Assignment to one key does not change lookups of another. -/
theorem lookupA_setA_ne {α : Type} (l : List (String × α)) (k k' : String)
    (v : α) (h : k' ≠ k) : lookupA (setA l k v) k' = lookupA l k' := by
  have hne : ¬k = k' := fun hh => h hh.symm
  induction l with
  | nil => simp [setA, lookupA, hne]
  | cons hd tl ih =>
    obtain ⟨k'', v''⟩ := hd
    by_cases h2 : k'' = k
    · subst h2
      simp [setA, lookupA, hne]
    · simp [setA, lookupA, h2, ih]

/-- `lookupD` version of `lookupA_setA_self`. -/
theorem lookupD_setA_self {α : Type} (l : List (String × α)) (k : String)
    (v dflt : α) : lookupD (setA l k v) k dflt = v := by
  simp [lookupD, lookupA_setA_self]

/-- `lookupD` version of `lookupA_setA_ne`. -/
theorem lookupD_setA_ne {α : Type} (l : List (String × α)) (k k' : String)
    (v dflt : α) (h : k' ≠ k) :
    lookupD (setA l k v) k' dflt = lookupD l k' dflt := by
  simp [lookupD, lookupA_setA_ne _ _ _ _ h]

/-! ### Frontier step lemmas -/

/-- If every queue is empty, the ready-domain scan finds nothing. -/
theorem scanFind_none_of_empty (delay now : ℚ) (last : List (String × ℚ))
    (qs : List (String × List String)) (h : ∀ p ∈ qs, p.2 = []) :
    scanFind delay now last qs = none := by
  induction qs with
  | nil => rfl
  | cons hd tl ih =>
    obtain ⟨d, q⟩ := hd
    have hq : q = [] := h (d, q) (by simp)
    subst hq
    simp only [scanFind]
    exact ih (fun p hp => h p (by simp [hp]))

/-- The scan only returns a domain whose cooldown has elapsed. -/
theorem scanFind_ready (delay now : ℚ) (last : List (String × ℚ)) :
    ∀ (qs : List (String × List String)) (d u : String),
      scanFind delay now last qs = some (d, u) →
      delay ≤ now - lookupD last d 0 := by
  intro qs
  induction qs with
  | nil => intro d u h; cases h
  | cons hd tl ih =>
    obtain ⟨d', q⟩ := hd
    intro d u h
    cases q with
    | nil =>
      simp only [scanFind] at h
      exact ih d u h
    | cons u' q' =>
      by_cases hr : delay ≤ now - lookupD last d' 0
      · simp only [scanFind, if_pos hr, Option.some.injEq, Prod.mk.injEq] at h
        obtain ⟨h1, _⟩ := h
        subst h1
        exact hr
      · simp only [scanFind, if_neg hr] at h
        exact ih d u h

/-- Inversion of a dispatching loop iteration: the dispatched domain was
ready, and the successor state stamps it and bumps the worker count. -/
theorem dispatch_inv (delay now stamp : ℚ) (f : Frontier) (u d : String)
    (f' : Frontier)
    (h : get_tbd_url_step delay f now stamp = .dispatch u d f') :
    delay ≤ now - lookupD f.last_request_time d 0 ∧
    f' = { f with
           domain_queues := popQ f.domain_queues d
           last_request_time := setA f.last_request_time d stamp
           active_workers := f.active_workers + 1 } := by
  unfold get_tbd_url_step at h
  rcases hscan : scanFind delay now f.last_request_time f.domain_queues with
    _ | ⟨d', u'⟩
  · rw [hscan] at h
    simp only at h
    split_ifs at h
    rcases hsw : shortestWait delay now f.last_request_time f.domain_queues with
      _ | w <;> rw [hsw] at h <;> cases h
  · rw [hscan] at h
    simp only [GetOutcome.dispatch.injEq] at h
    obtain ⟨hu, hd, hf⟩ := h
    subst hu; subst hd
    exact ⟨scanFind_ready delay now _ _ _ _ hscan, hf.symm⟩

/-- C2: one loop iteration of `get_tbd_url` returns the terminal `None`
signal exactly when every host queue is empty and `active_workers` is
zero; with pending URLs or positive `active_workers` it dispatches or
waits instead. -/
theorem get_tbd_none_iff (delay now stamp : ℚ) (f : Frontier) :
    get_tbd_url_step delay f now stamp = .finished ↔
      (∀ p ∈ f.domain_queues, p.2 = []) ∧ f.active_workers = 0 := by
  constructor
  · intro h
    unfold get_tbd_url_step at h
    rcases hscan : scanFind delay now f.last_request_time f.domain_queues with
      _ | ⟨d', u'⟩
    · rw [hscan] at h
      dsimp only at h
      by_cases hc : (f.domain_queues.any fun p => !p.2.isEmpty) = false ∧
          f.active_workers = 0
      · obtain ⟨hurls, hzero⟩ := hc
        refine ⟨?_, hzero⟩
        intro p hp
        have := List.any_eq_false.mp hurls p hp
        simpa [List.isEmpty_iff] using this
      · rw [if_neg hc] at h
        by_cases hc2 : (f.domain_queues.any fun p => !p.2.isEmpty) = false ∧
            0 < f.active_workers
        · rw [if_pos hc2] at h
          cases h
        · rw [if_neg hc2] at h
          rcases hsw : shortestWait delay now f.last_request_time f.domain_queues
            with _ | w <;> rw [hsw] at h <;> cases h
    · rw [hscan] at h
      cases h
  · intro ⟨hempty, hzero⟩
    unfold get_tbd_url_step
    rw [scanFind_none_of_empty delay now _ _ hempty]
    have hurls : f.domain_queues.any (fun p => !p.2.isEmpty) = false := by
      apply List.any_eq_false.mpr
      intro p hp
      simp [List.isEmpty_iff, hempty p hp]
    simp [hurls, hzero]

/-- Witness for `get_tbd_none_iff`: the empty frontier with no active
workers reports the crawl finished. -/
theorem get_tbd_none_iff_witness :
    get_tbd_url_step 1 emptyFrontier 0 0 = .finished :=
  (get_tbd_none_iff 1 0 0 emptyFrontier).mpr ⟨by simp [emptyFrontier], rfl⟩

/-! ### Frame lemmas for `add_url` and `mark_url_complete` -/

/-- A successful `add_url` changes neither `last_request_time` nor
`active_workers`. -/
theorem add_url_ok_frame (f : Frontier) (url : String) (f₁ : Frontier)
    (h : add_url f url = .ok f₁) :
    f₁.last_request_time = f.last_request_time ∧
    f₁.active_workers = f.active_workers := by
  unfold add_url at h
  rcases hh : get_urlhash (normalize url) with e | hv <;> rw [hh] at h
  · cases h
  · dsimp only at h
    by_cases hmem : (lookupA f.save hv).isSome
    · rw [if_pos hmem] at h
      injection h with h1
      rw [← h1]
      exact ⟨rfl, rfl⟩
    · rw [if_neg hmem] at h
      rcases hp : urlparse (normalize url) with e | p <;> rw [hp] at h
      · cases h
      · injection h with h1
        rw [← h1]
        exact ⟨rfl, rfl⟩

/-- A successful `mark_url_complete` decrements `active_workers` and
leaves the queues and timestamps alone. -/
theorem mark_ok_frame (f : Frontier) (url : String) (f₁ : Frontier)
    (h : mark_url_complete f url = .ok f₁) :
    f₁.last_request_time = f.last_request_time ∧
    f₁.active_workers = f.active_workers - 1 ∧
    f₁.domain_queues = f.domain_queues := by
  unfold mark_url_complete at h
  rcases hh : get_urlhash url with e | hv <;> rw [hh] at h
  · cases h
  · injection h with h1
    rw [← h1]
    exact ⟨rfl, rfl, rfl⟩

/-- `applyOp` of an `add` preserves `last_request_time`. -/
theorem applyOp_add_last (delay : ℚ) (f : Frontier) (url : String) :
    (applyOp delay f (.add url)).last_request_time = f.last_request_time := by
  rcases ha : add_url f url with e | f₁
  · simp [applyOp, ha]
  · simp only [applyOp, ha]
    exact (add_url_ok_frame f url f₁ ha).1

/-- `applyOp` of a `mark` preserves `last_request_time`. -/
theorem applyOp_mark_last (delay : ℚ) (f : Frontier) (url : String) :
    (applyOp delay f (.mark url)).last_request_time = f.last_request_time := by
  rcases ha : mark_url_complete f url with e | f₁
  · simp [applyOp, ha]
  · simp only [applyOp, ha]
    exact (mark_ok_frame f url f₁ ha).1

/-! ### Dispatch-stamp equations -/

/-- Unfolding `dispStamps` over a dispatching `get` iteration. -/
theorem dispStamps_get_dispatch (delay : ℚ) (f : Frontier) (d : String)
    (now stamp : ℚ) (rest : List Op) (u d' : String) (f' : Frontier)
    (hstep : get_tbd_url_step delay f now stamp = .dispatch u d' f') :
    dispStamps delay f d (.get now stamp :: rest) =
      (if d' = d then [stamp] else []) ++ dispStamps delay f' d rest := by
  have happ : applyOp delay f (.get now stamp) = f' := by
    simp [applyOp, hstep]
  by_cases hd : d' = d <;> simp [dispStamps, hstep, happ, hd]

/-- Unfolding `dispStamps` over a `finished` iteration. -/
theorem dispStamps_get_finished (delay : ℚ) (f : Frontier) (d : String)
    (now stamp : ℚ) (rest : List Op)
    (hstep : get_tbd_url_step delay f now stamp = .finished) :
    dispStamps delay f d (.get now stamp :: rest) =
      dispStamps delay f d rest := by
  have happ : applyOp delay f (.get now stamp) = f := by
    simp [applyOp, hstep]
  simp [dispStamps, hstep, happ]

/-- Unfolding `dispStamps` over a waiting iteration. -/
theorem dispStamps_get_wait (delay : ℚ) (f : Frontier) (d : String)
    (now stamp : ℚ) (rest : List Op) (w : Option ℚ)
    (hstep : get_tbd_url_step delay f now stamp = .wait w) :
    dispStamps delay f d (.get now stamp :: rest) =
      dispStamps delay f d rest := by
  have happ : applyOp delay f (.get now stamp) = f := by
    simp [applyOp, hstep]
  simp [dispStamps, hstep, happ]

/-- Unfolding `dispStamps` over an `add`. -/
theorem dispStamps_add (delay : ℚ) (f : Frontier) (d url : String)
    (rest : List Op) :
    dispStamps delay f d (.add url :: rest) =
      dispStamps delay (applyOp delay f (.add url)) d rest := by
  simp [dispStamps]

/-- Unfolding `dispStamps` over a `mark`. -/
theorem dispStamps_mark (delay : ℚ) (f : Frontier) (d url : String)
    (rest : List Op) :
    dispStamps delay f d (.mark url :: rest) =
      dispStamps delay (applyOp delay f (.mark url)) d rest := by
  simp [dispStamps]

/-! ### C1: politeness along a trace -/

/-- Core invariant for politeness: along any clock-sane trace, every
recorded dispatch stamp for host `d` is at least the host's current
`last_request_time` plus the delay, and consecutive recorded stamps are at
least the delay apart (stated as `Pairwise`, which covers every pair). -/
theorem dispStamps_bound (delay : ℚ) (hδ : 0 ≤ delay) (d : String) :
    ∀ (ops : List Op) (f : Frontier) (t : ℚ),
      ClockOK t ops = true →
      lookupD f.last_request_time d 0 ≤ t →
      (∀ x ∈ dispStamps delay f d ops,
          lookupD f.last_request_time d 0 + delay ≤ x) ∧
      (dispStamps delay f d ops).Pairwise (fun a b => a + delay ≤ b) := by
  intro ops
  induction ops with
  | nil =>
    intro f t hc hl
    simp [dispStamps]
  | cons op rest ih =>
    intro f t hc hl
    cases op with
    | get now stamp =>
      have hc' : (t ≤ now ∧ now ≤ stamp) ∧ ClockOK stamp rest = true := by
        simpa [ClockOK] using hc
      obtain ⟨⟨h1, h2⟩, h3⟩ := hc'
      rcases hstep : get_tbd_url_step delay f now stamp with ⟨u', d', f'⟩ | _ | w
      · obtain ⟨hready, hfeq⟩ := dispatch_inv delay now stamp f u' d' f' hstep
        by_cases hdd : d' = d
        · subst hdd
          have hlast' : lookupD f'.last_request_time d' 0 = stamp := by
            rw [hfeq]
            exact lookupD_setA_self _ _ _ _
          have ihres := ih f' stamp h3 (le_of_eq hlast')
          rw [hlast'] at ihres
          rw [dispStamps_get_dispatch delay f d' now stamp rest u' d' f' hstep,
              if_pos rfl, List.singleton_append]
          constructor
          · intro x hx
            rcases List.mem_cons.mp hx with hx | hx
            · subst hx
              linarith
            · have hxs := ihres.1 x hx
              linarith
          · exact List.Pairwise.cons (fun x hx => ihres.1 x hx) ihres.2
        · have hlast' : lookupD f'.last_request_time d 0 =
              lookupD f.last_request_time d 0 := by
            rw [hfeq]
            exact lookupD_setA_ne _ _ _ _ _ (fun hh => hdd hh.symm)
          have ihres := ih f' stamp h3 (by rw [hlast']; linarith)
          rw [hlast'] at ihres
          rw [dispStamps_get_dispatch delay f d now stamp rest u' d' f' hstep,
              if_neg hdd, List.nil_append]
          exact ihres
      · rw [dispStamps_get_finished delay f d now stamp rest hstep]
        exact ih f stamp h3 (by linarith)
      · rw [dispStamps_get_wait delay f d now stamp rest w hstep]
        exact ih f stamp h3 (by linarith)
    | add url =>
      have hc' : ClockOK t rest = true := by simpa [ClockOK] using hc
      have hlast' := applyOp_add_last delay f url
      rw [dispStamps_add]
      have ihres := ih (applyOp delay f (.add url)) t hc' (by rw [hlast']; exact hl)
      rw [hlast'] at ihres
      exact ihres
    | mark url =>
      have hc' : ClockOK t rest = true := by simpa [ClockOK] using hc
      have hlast' := applyOp_mark_last delay f url
      rw [dispStamps_mark]
      have ihres := ih (applyOp delay f (.mark url)) t hc' (by rw [hlast']; exact hl)
      rw [hlast'] at ihres
      exact ihres

/-- C1: politeness.  For any sequence of frontier operations with a sane
(monotone) clock, starting from a state whose recorded timestamp for host
`d` is in the past, the dispatch timestamps recorded for host `d` are
pairwise at least the politeness delay apart — equivalently (see
`dispatch_inv`) a URL is popped from a host's queue only when the elapsed
time since that host's last recorded dispatch is at least the delay. -/
theorem frontier_politeness (delay t : ℚ) (f : Frontier) (ops : List Op)
    (d : String) (hδ : 0 ≤ delay) (hc : ClockOK t ops = true)
    (hl : lookupD f.last_request_time d 0 ≤ t) :
    (dispStamps delay f d ops).Pairwise (fun a b => a + delay ≤ b) :=
  (dispStamps_bound delay hδ d ops f t hc hl).2

/-- Witness for `frontier_politeness`: two URLs on the same host,
dispatched at times 10 and 10.5 with delay 0.5. -/
theorem frontier_politeness_witness :
    (dispStamps (mkRat 1 2)
        ⟨[], [("a.com", ["http://a.com/x", "http://a.com/y"])], [], 0⟩
        "a.com" [Op.get 10 10, Op.get (mkRat 21 2) (mkRat 21 2)]).Pairwise
      (fun a b => a + mkRat 1 2 ≤ b) :=
  frontier_politeness (mkRat 1 2) 0
    ⟨[], [("a.com", ["http://a.com/x", "http://a.com/y"])], [], 0⟩
    [Op.get 10 10, Op.get (mkRat 21 2) (mkRat 21 2)] "a.com"
    (by norm_num) (by decide) (by decide)

/-! ### C4: the `active_workers` counter -/

/-- Bookkeeping identity: after any run, `active_workers` has changed by
exactly (number of successful dispatches) − (number of successful
`mark_url_complete` calls). -/
theorem run_active (delay : ℚ) :
    ∀ (ops : List Op) (f : Frontier),
      (run delay f ops).active_workers =
        f.active_workers + (opCounts delay f ops).1 - (opCounts delay f ops).2 := by
  intro ops
  induction ops with
  | nil =>
    intro f
    simp [run, opCounts]
  | cons op rest ih =>
    intro f
    cases op with
    | get now stamp =>
      rcases hstep : get_tbd_url_step delay f now stamp with ⟨u, d, f'⟩ | _ | w
      · have happ : applyOp delay f (.get now stamp) = f' := by
          simp [applyOp, hstep]
        have hact : f'.active_workers = f.active_workers + 1 := by
          obtain ⟨_, hf⟩ := dispatch_inv delay now stamp f u d f' hstep
          rw [hf]
        simp only [run, opCounts, hstep, happ, ih f', hact]
        omega
      · have happ : applyOp delay f (.get now stamp) = f := by
          simp [applyOp, hstep]
        simp only [run, opCounts, hstep, happ, ih f]
      · have happ : applyOp delay f (.get now stamp) = f := by
          simp [applyOp, hstep]
        simp only [run, opCounts, hstep, happ, ih f]
    | add url =>
      rcases ha : add_url f url with e | f₁
      · have happ : applyOp delay f (.add url) = f := by simp [applyOp, ha]
        simp only [run, opCounts, ha, happ, ih f]
      · have happ : applyOp delay f (.add url) = f₁ := by simp [applyOp, ha]
        have hact : f₁.active_workers = f.active_workers :=
          (add_url_ok_frame f url f₁ ha).2
        simp only [run, opCounts, ha, happ, ih f₁, hact]
    | mark url =>
      rcases hm : mark_url_complete f url with e | f₁
      · have happ : applyOp delay f (.mark url) = f := by simp [applyOp, hm]
        simp only [run, opCounts, hm, happ, ih f]
      · have happ : applyOp delay f (.mark url) = f₁ := by simp [applyOp, hm]
        have hact : f₁.active_workers = f.active_workers - 1 :=
          (mark_ok_frame f url f₁ hm).2.1
        simp only [run, opCounts, hm, happ, ih f₁, hact]
        omega

/-- C4 counterexample: a single `mark_url_complete` on a fresh frontier —
the anomalous completion of a URL never seen before, which the code keeps
non-fatal — drives `active_workers` to −1, because the decrement is
unconditional. -/
theorem active_workers_negative :
    (run 1 emptyFrontier [Op.mark "http://a/x"]).active_workers = -1 := by
  decide

/-- C4 amended: `active_workers` stays non-negative along every prefix of
a run exactly when, in every prefix, the successful `mark_url_complete`
calls never outnumber the successful dispatches plus the initial count —
which is the worker protocol (each completion matched by a prior
dispatch).  An unmatched `mark_url_complete` (e.g. for a URL never
dispatched) violates the hypothesis and drives the counter negative
(`active_workers_negative`). -/
theorem active_workers_nonneg (delay : ℚ) (f : Frontier) (ops : List Op)
    (hmatch : ∀ pre ∈ ops.inits,
      (opCounts delay f pre).2 ≤ (opCounts delay f pre).1 + f.active_workers) :
    ∀ pre ∈ ops.inits, 0 ≤ (run delay f pre).active_workers := by
  intro pre hpre
  have h := hmatch pre hpre
  rw [run_active]
  omega

/-- Witness for `active_workers_nonneg`: a dispatch followed by its
matching completion keeps the counter non-negative. -/
theorem active_workers_nonneg_witness :
    0 ≤ (run 1 ⟨[], [("a", ["http://a/x"])], [], 0⟩
        [Op.get 10 10, Op.mark "http://a/x"]).active_workers :=
  active_workers_nonneg 1 ⟨[], [("a", ["http://a/x"])], [], 0⟩
    [Op.get 10 10, Op.mark "http://a/x"] (by with_unfolding_all decide)
    [Op.get 10 10, Op.mark "http://a/x"] (by with_unfolding_all decide)

/-! ### C9: `mark_url_complete` on an unknown URL vs a later `add_url` -/

/-- C9 counterexample: `mark_url_complete` hashes the URL as given, while
`add_url` hashes the normalized URL.  For `"http://a/p/"` (trailing
slash) the two hashes differ, so after the anomalous completion the very
same URL is happily re-added and enqueued — it is not a no-op and the URL
can still be crawled. -/
theorem mark_then_add_trailing_slash :
    mark_url_complete emptyFrontier "http://a/p/" =
      .ok ⟨[("39fa4318b6664ad81b89f17c3848fb130e2026f5c9c3369981c2ac95d3dd245b",
             ("http://a/p/", true))], [], [], -1⟩ ∧
    add_url
        ⟨[("39fa4318b6664ad81b89f17c3848fb130e2026f5c9c3369981c2ac95d3dd245b",
           ("http://a/p/", true))], [], [], -1⟩ "http://a/p/" =
      .ok ⟨[("39fa4318b6664ad81b89f17c3848fb130e2026f5c9c3369981c2ac95d3dd245b",
             ("http://a/p/", true)),
            ("43ba9743aa0aa646a689052bcc807884c1ccb72140364413dd1bcf1b92774c34",
             ("http://a/p", false))],
           [("a", ["http://a/p"])], [], -1⟩ :=
  ⟨by with_unfolding_all rfl, by with_unfolding_all rfl⟩

/-- C9 amended: for a URL that is its own normalization (no trailing
slash), `mark_url_complete` on a never-seen URL still writes a
`(url, True)` record under its hash, and a subsequent `add_url` of the
same URL is then a complete no-op (the state is returned unchanged), so
the URL can never be enqueued afterwards. -/
theorem mark_then_add_noop (f : Frontier) (url h : String) (f₁ : Frontier)
    (hnorm : normalize url = url)
    (hhash : get_urlhash url = .ok h)
    (hm : mark_url_complete f url = .ok f₁) :
    lookupA f₁.save h = some (url, true) ∧ add_url f₁ url = .ok f₁ := by
  unfold mark_url_complete at hm
  rw [hhash] at hm
  injection hm with hm1
  have hsave : f₁.save = setA f.save h (url, true) := by rw [← hm1]
  have hlook : lookupA f₁.save h = some (url, true) := by
    rw [hsave]
    exact lookupA_setA_self _ _ _
  refine ⟨hlook, ?_⟩
  unfold add_url
  rw [hnorm, hhash]
  dsimp only
  rw [hlook]
  rfl

/-- Witness for `mark_then_add_noop` at `"http://a/p"`. -/
theorem mark_then_add_noop_witness :
    lookupA
        (Frontier.save
          ⟨[("43ba9743aa0aa646a689052bcc807884c1ccb72140364413dd1bcf1b92774c34",
             ("http://a/p", true))], [], [], -1⟩)
        "43ba9743aa0aa646a689052bcc807884c1ccb72140364413dd1bcf1b92774c34" =
      some ("http://a/p", true) ∧
    add_url
        ⟨[("43ba9743aa0aa646a689052bcc807884c1ccb72140364413dd1bcf1b92774c34",
           ("http://a/p", true))], [], [], -1⟩ "http://a/p" =
      .ok ⟨[("43ba9743aa0aa646a689052bcc807884c1ccb72140364413dd1bcf1b92774c34",
             ("http://a/p", true))], [], [], -1⟩ :=
  mark_then_add_noop emptyFrontier "http://a/p"
    "43ba9743aa0aa646a689052bcc807884c1ccb72140364413dd1bcf1b92774c34"
    ⟨[("43ba9743aa0aa646a689052bcc807884c1ccb72140364413dd1bcf1b92774c34",
       ("http://a/p", true))], [], [], -1⟩
    (by with_unfolding_all rfl) (by with_unfolding_all rfl)
    (by with_unfolding_all rfl)

/-! ### Counter invariants (for C5/C7) -/

/-- A well-formed token-frequency vector: pairwise-distinct keys and
positive counts — what `dict(Counter(tokens))` produces. -/
def goodVec (v : Vec) : Prop :=
  (v.map Prod.fst).Nodup ∧ ∀ kv ∈ v, 1 ≤ kv.2

/-- Unfolding equation for `bumpCount` on a cons cell. -/
theorem bumpCount_cons (k : String) (c : Nat) (rest : Vec) (t : String) :
    bumpCount ((k, c) :: rest) t =
      if k = t then (k, c + 1) :: rest else (k, c) :: bumpCount rest t := rfl

/-- Keys after a `bumpCount` are the old keys or the bumped token. -/
theorem bumpCount_keys_mem (v : Vec) (t x : String)
    (h : x ∈ (bumpCount v t).map Prod.fst) : x ∈ v.map Prod.fst ∨ x = t := by
  induction v with
  | nil =>
    simp [bumpCount] at h
    exact Or.inr h
  | cons kv rest ih =>
    obtain ⟨k, c⟩ := kv
    rw [bumpCount_cons] at h
    by_cases hk : k = t
    · rw [if_pos hk] at h
      simp only [List.map_cons, List.mem_cons] at h ⊢
      tauto
    · rw [if_neg hk] at h
      simp only [List.map_cons, List.mem_cons] at h ⊢
      rcases h with h | h
      · exact Or.inl (Or.inl h)
      · rcases ih h with h2 | h2
        · exact Or.inl (Or.inr h2)
        · exact Or.inr h2

/-- `bumpCount` preserves well-formedness. -/
theorem bumpCount_good (v : Vec) (t : String) (h : goodVec v) :
    goodVec (bumpCount v t) := by
  induction v with
  | nil =>
    constructor
    · simp [bumpCount]
    · intro kv hkv
      simp [bumpCount] at hkv
      simp [hkv]
  | cons kv rest ih =>
    obtain ⟨k, c⟩ := kv
    obtain ⟨hnd, hpos⟩ := h
    simp only [List.map_cons, List.nodup_cons] at hnd
    by_cases hk : k = t
    · refine ⟨?_, ?_⟩
      · rw [bumpCount_cons, if_pos hk]
        simp only [List.map_cons, List.nodup_cons]
        exact hnd
      · intro kv hkv
        rw [bumpCount_cons, if_pos hk] at hkv
        rcases List.mem_cons.mp hkv with hkv | hkv
        · simp [hkv]
        · exact hpos kv (by simp [hkv])
    · have hrest : goodVec rest :=
        ⟨hnd.2, fun kv hkv => hpos kv (by simp [hkv])⟩
      obtain ⟨ihnd, ihpos⟩ := ih hrest
      refine ⟨?_, ?_⟩
      · rw [bumpCount_cons, if_neg hk]
        simp only [List.map_cons, List.nodup_cons]
        refine ⟨?_, ihnd⟩
        intro hmem
        rcases bumpCount_keys_mem rest t k hmem with h2 | h2
        · exact hnd.1 h2
        · exact hk h2
      · intro kv hkv
        rw [bumpCount_cons, if_neg hk] at hkv
        rcases List.mem_cons.mp hkv with hkv | hkv
        · subst hkv
          exact hpos (k, c) (by simp)
        · exact ihpos kv hkv

/-- `counter` always produces a well-formed vector. -/
theorem counter_good (ts : List String) : goodVec (counter ts) := by
  have main : ∀ (l : List String) (v : Vec), goodVec v →
      goodVec (l.foldl bumpCount v) := by
    intro l
    induction l with
    | nil => intro v hv; simpa using hv
    | cons t rest ih =>
      intro v hv
      simpa using ih (bumpCount v t) (bumpCount_good v t hv)
  exact main ts [] ⟨by simp, by simp⟩

/-- On a vector with distinct keys, `vec.get(k, 0)` at a member entry
returns that entry's count. -/
theorem getD0_self (v : Vec) (hnd : (v.map Prod.fst).Nodup) :
    ∀ kv ∈ v, getD0 v kv.1 = kv.2 := by
  induction v with
  | nil => intro kv hkv; cases hkv
  | cons hd rest ih =>
    obtain ⟨k, c⟩ := hd
    simp only [List.map_cons, List.nodup_cons] at hnd
    intro kv hkv
    rcases List.mem_cons.mp hkv with hkv | hkv
    · subst hkv
      simp [getD0, lookupD, lookupA]
    · have hne : ¬k = kv.1 := by
        intro hh
        exact hnd.1 (hh ▸ List.mem_map.mpr ⟨kv, hkv, rfl⟩)
      have := ih hnd.2 kv hkv
      simpa [getD0, lookupD, lookupA, hne] using this

/-- The dot product of a distinct-key vector with itself is its squared
norm. -/
theorem dotV_self (v : Vec) (hnd : (v.map Prod.fst).Nodup) :
    dotV v v = normSq v := by
  unfold dotV normSq
  apply congrArg List.sum
  apply List.map_congr_left
  intro kv hkv
  rw [getD0_self v hnd kv hkv]

/-- A non-empty vector with positive counts has positive squared norm. -/
theorem normSq_pos (v : Vec) (hne : v ≠ [])
    (hpos : ∀ kv ∈ v, 1 ≤ kv.2) : normSq v ≠ 0 := by
  intro h0
  cases v with
  | nil => exact hne rfl
  | cons kv rest =>
    have hmem : kv.2 * kv.2 ∈ ((kv :: rest).map (fun p => p.2 * p.2)) := by
      simp
    have := List.sum_eq_zero_iff.mp h0 (kv.2 * kv.2) hmem
    have hk := hpos kv (by simp)
    nlinarith

/-- The vector of a text is well-formed. -/
theorem vectorize_good (text : String) : goodVec (vectorize text) := by
  unfold vectorize
  by_cases h : tokenize_string text = []
  · simp [h, goodVec]
  · simpa [h] using counter_good (tokenize_string text)

/-- A non-empty token vector matches itself at any threshold at most 1
(the exact-arithmetic similarity of a vector with itself is 1). -/
theorem cosSimGe_self (text : String) (t : ℚ) (ht : t ≤ 1)
    (h : vectorize text ≠ []) :
    cosSimGe (vectorize text) (vectorize text) t = true := by
  obtain ⟨hnd, hpos⟩ := vectorize_good text
  have hns : normSq (vectorize text) ≠ 0 := normSq_pos _ h hpos
  unfold cosSimGe
  rw [if_neg (by simp [h]), if_neg (by simp [hns])]
  by_cases ht0 : t ≤ 0
  · simp [ht0]
  · apply Bool.or_eq_true_iff.mpr
    right
    apply decide_eq_true
    rw [dotV_self _ hnd]
    have hq : (1 : ℚ) ≤ (normSq (vectorize text) : ℚ) := by
      exact_mod_cast Nat.one_le_iff_ne_zero.mpr hns
    have ht1 : t ^ 2 ≤ 1 := by nlinarith
    nlinarith

/-! ### C5: the `is_duplicate` contract -/

/-- C5: on any reachable checker state (capacity at least 1, at most `n`
vectors held), `is_duplicate` returns `False` and inserts nothing when
the text's token vector is empty; returns `True` and inserts nothing when
some held vector is at least `threshold`-similar; and otherwise inserts
the vector — evicting the oldest exactly when the index already holds `n`
entries — and returns `False`. -/
theorem is_duplicate_contract (st : DuplicateChecker) (text : String)
    (hn : 1 ≤ st.n) (hlen : st.vectors.length ≤ st.n) :
    (vectorize text = [] → is_duplicate st text = (false, st)) ∧
    (vectorize text ≠ [] →
      st.vectors.any (fun s => cosSimGe (vectorize text) s st.threshold) = true →
      is_duplicate st text = (true, st)) ∧
    (vectorize text ≠ [] →
      st.vectors.any (fun s => cosSimGe (vectorize text) s st.threshold) = false →
      is_duplicate st text =
        (false, { st with vectors :=
          (if st.vectors.length = st.n then st.vectors.tail else st.vectors) ++
            [vectorize text] })) := by
  refine ⟨?_, ?_, ?_⟩
  · intro hv
    simp [is_duplicate, hv]
  · intro hv hany
    simp [is_duplicate, hv, hany]
  · intro hv hany
    simp only [is_duplicate, if_neg hv, hany, Bool.false_eq_true, if_false]
    have hpush : pushEvict st.vectors (vectorize text) st.n =
        (if st.vectors.length = st.n then st.vectors.tail else st.vectors) ++
          [vectorize text] := by
      unfold pushEvict
      by_cases he : st.vectors.length = st.n
      · rw [if_pos he]
        have h1 : st.vectors.length + 1 - st.n = 1 := by omega
        rw [h1, List.drop_append_of_le_length (by omega), List.drop_one]
      · rw [if_neg he]
        have h1 : st.vectors.length + 1 - st.n = 0 := by omega
        rw [h1, List.drop_zero]
    rw [hpush]

/-- Witness for `is_duplicate_contract`: a checker at capacity 1 holding
one vector receives a dissimilar text; the old vector is evicted. -/
theorem is_duplicate_contract_witness :
    is_duplicate ⟨1, mkRat 9 10, [[("a", 1)]]⟩ "b b" =
      (false, ⟨1, mkRat 9 10, [[("b", 2)]]⟩) :=
  (is_duplicate_contract ⟨1, mkRat 9 10, [[("a", 1)]]⟩ "b b"
      (by decide) (by decide)).2.2
    (by with_unfolding_all decide) (by with_unfolding_all decide)

/-! ### C7: duplicate-detection idempotence -/

/-- C7 counterexample: for a text with no usable tokens (here the empty
string) the vector is empty and `is_duplicate` returns `False` on both
calls — the second call does not return `True` as claimed. -/
theorem dup_idem_fails_on_empty :
    (is_duplicate ⟨1000, mkRat 9 10, []⟩ "").1 = false ∧
    (is_duplicate (is_duplicate ⟨1000, mkRat 9 10, []⟩ "").2 "").1 = false :=
  ⟨by with_unfolding_all rfl, by with_unfolding_all rfl⟩

/-- C7 amended: for every text whose token vector is non-empty, on a
fresh checker (empty index, capacity at least 1, threshold at most 1 —
the default is 0.9), `is_duplicate` returns `False` and stores the
vector, and a second call with the same text returns `True` (the stored
vector matches itself with exact-arithmetic similarity 1). -/
theorem dup_idem_amended (st : DuplicateChecker) (T : String)
    (hv : st.vectors = []) (hn : 1 ≤ st.n) (ht : st.threshold ≤ 1)
    (htok : vectorize T ≠ []) :
    is_duplicate st T = (false, { st with vectors := [vectorize T] }) ∧
    (is_duplicate { st with vectors := [vectorize T] } T).1 = true := by
  constructor
  · have hany : st.vectors.any
        (fun s => cosSimGe (vectorize T) s st.threshold) = false := by
      simp [hv]
    have hpush : pushEvict st.vectors (vectorize T) st.n = [vectorize T] := by
      unfold pushEvict
      rw [hv]
      have h0 : ([] : List Vec).length + 1 - st.n = 0 := by
        simp only [List.length_nil]
        omega
      rw [h0]
      simp
    simp only [is_duplicate, if_neg htok, hany, Bool.false_eq_true, if_false,
      hpush]
  · have hself := cosSimGe_self T st.threshold ht htok
    simp [is_duplicate, htok, hself]

/-- Witness for `dup_idem_amended` on `"hello world hello"`. -/
theorem dup_idem_amended_witness :
    is_duplicate ⟨1000, mkRat 9 10, []⟩ "hello world hello" =
      (false, ⟨1000, mkRat 9 10, [[("hello", 2), ("world", 1)]]⟩) ∧
    (is_duplicate ⟨1000, mkRat 9 10, [[("hello", 2), ("world", 1)]]⟩
        "hello world hello").1 = true :=
  dup_idem_amended ⟨1000, mkRat 9 10, []⟩ "hello world hello"
    rfl (by decide) (by decide) (by with_unfolding_all decide)

/-! ### C8: tokenizer round trip -/

/-- ASCII alphanumerics have code points below 128. -/
theorem pyIsAlnumAscii_lt_128 (c : Char) (h : pyIsAlnumAscii c = true) :
    c.toNat < 128 := by
  unfold pyIsAlnumAscii at h
  simp only [Bool.or_eq_true, Bool.and_eq_true, decide_eq_true_eq] at h
  omega

/-- Character facts checked over all 128 ASCII code points: lowering an
alphanumeric keeps it alphanumeric, is idempotent, and never produces
whitespace. -/
theorem char_fact_fin : ∀ n : Fin 128,
    pyIsAlnumAscii (Char.ofNat n.val) = true →
      (pyIsAlnumAscii (pyLower (Char.ofNat n.val)) = true ∧
       pyLower (pyLower (Char.ofNat n.val)) = pyLower (Char.ofNat n.val) ∧
       isPySpace (pyLower (Char.ofNat n.val)) = false) := by decide

/-- The character facts, transported to an arbitrary ASCII character. -/
theorem char_fact (c : Char) (hlt : c.toNat < 128)
    (ha : pyIsAlnumAscii c = true) :
    pyIsAlnumAscii (pyLower c) = true ∧ pyLower (pyLower c) = pyLower c ∧
      isPySpace (pyLower c) = false := by
  have hc : Char.ofNat c.toNat = c := Char.ofNat_toNat c
  have hres := char_fact_fin ⟨c.toNat, hlt⟩ (by rw [hc]; exact ha)
  rwa [hc] at hres

/-- Every token produced by `tokenize_string` is a non-empty string of
ASCII alphanumerics that are fixed points of lowering (hence not
whitespace). -/
theorem tokenize_string_chars (T : String) :
    ∀ w ∈ tokenize_string T, w.data ≠ [] ∧
      ∀ c ∈ w.data, pyIsAlnumAscii c = true ∧ pyLower c = c ∧
        isPySpace c = false := by
  intro w hw
  unfold tokenize_string at hw
  by_cases hT : T = ""
  · simp [hT] at hw
  · rw [if_neg hT] at hw
    simp only [List.mem_map, List.mem_filter] at hw
    obtain ⟨w', ⟨_, hw'filter⟩, rfl⟩ := hw
    have hfil := hw'filter
    simp only [Bool.and_eq_true, Bool.not_eq_eq_eq_not, Bool.not_true,
      List.all_eq_true, List.isEmpty_eq_false] at hfil
    obtain ⟨hne, hall⟩ := hfil
    constructor
    · show w'.map pyLower ≠ []
      simp [hne]
    · intro c hc
      obtain ⟨c', hc', rfl⟩ := List.mem_map.mp hc
      have ha := hall c' hc'
      have hlt := pyIsAlnumAscii_lt_128 c' ha
      exact char_fact c' hlt ha

/-- `normChars` fixes a list of alphanumerics and plain spaces. -/
theorem normChars_fixed (l : List Char)
    (h : ∀ c ∈ l, pyIsAlnumAscii c = true ∨ c = ' ') : normChars l = l := by
  induction l with
  | nil => rfl
  | cons c rest ih =>
    have hrest := ih (fun c hc => h c (by simp [hc]))
    unfold normChars at hrest ⊢
    rcases h c (by simp) with hc | hc
    · simp [List.filterMap_cons, hc, hrest]
    · subst hc
      have h1 : pyIsAlnumAscii ' ' = false := rfl
      have h2 : (' ').toNat < 128 := by decide
      simp [List.filterMap_cons, h1, h2, hrest]

/-- A character of a single-space join is a character of one of the words
or a space. -/
theorem joinWords_chars (ws : List (List Char)) (c : Char)
    (h : c ∈ joinWords ws) : (∃ w ∈ ws, c ∈ w) ∨ c = ' ' := by
  induction ws with
  | nil => cases h
  | cons w ws ih =>
    cases ws with
    | nil =>
      left
      exact ⟨w, by simp, by simpa [joinWords] using h⟩
    | cons x ws' =>
      rw [joinWords] at h
      rcases List.mem_append.mp h with h | h
      · exact Or.inl ⟨w, by simp, h⟩
      · rcases List.mem_cons.mp h with h | h
        · exact Or.inr h
        · rcases ih h with ⟨w', hw', hc⟩ | h2
          · exact Or.inl ⟨w', by simp [hw'], hc⟩
          · exact Or.inr h2

/-- A non-empty first word makes the join non-empty. -/
theorem joinWords_ne_nil (w : List Char) (ws : List (List Char))
    (hw : w ≠ []) : joinWords (w :: ws) ≠ [] := by
  cases ws with
  | nil => simpa [joinWords] using hw
  | cons x ws' => simp [joinWords]

/-- Scanning a run of non-space characters accumulates them. -/
theorem wordsAux_append_nonspace (sp : Char → Bool) (w : List Char)
    (hw : ∀ c ∈ w, sp c = false) :
    ∀ (cs acc : List Char),
      wordsAux sp (w ++ cs) acc = wordsAux sp cs (w.reverse ++ acc) := by
  induction w with
  | nil => intro cs acc; simp
  | cons c w' ih =>
    intro cs acc
    have hc : sp c = false := hw c (by simp)
    rw [List.cons_append, wordsAux, if_neg (by simp [hc])]
    rw [ih (fun c hc => hw c (by simp [hc])) cs (c :: acc)]
    simp

/-- A space with a non-empty accumulator emits the accumulated word. -/
theorem wordsAux_space (sp : Char → Bool) (c : Char) (hc : sp c = true)
    (cs acc : List Char) (hacc : acc ≠ []) :
    wordsAux sp (c :: cs) acc = acc.reverse :: wordsAux sp cs [] := by
  rw [wordsAux, if_pos (by simp [hc]), if_neg (by simp [hacc])]

/-- End of input with a non-empty accumulator emits the last word. -/
theorem wordsAux_last (sp : Char → Bool) (acc : List Char) (hacc : acc ≠ []) :
    wordsAux sp [] acc = [acc.reverse] := by
  rw [wordsAux, if_neg (by simp [hacc])]

/-- Splitting a single-space join of non-empty all-non-space words
recovers exactly the words. -/
theorem words_joinWords (sp : Char → Bool) (hsp : sp ' ' = true) :
    ∀ ws : List (List Char),
      (∀ w ∈ ws, w ≠ [] ∧ ∀ c ∈ w, sp c = false) →
      wordsAux sp (joinWords ws) [] = ws := by
  intro ws
  induction ws with
  | nil => intro _; rfl
  | cons w ws ih =>
    intro h
    obtain ⟨hwne, hwns⟩ := h w (by simp)
    cases ws with
    | nil =>
      have h1 : wordsAux sp (w ++ []) [] = wordsAux sp [] (w.reverse ++ []) :=
        wordsAux_append_nonspace sp w hwns [] []
      simp only [List.append_nil] at h1
      rw [joinWords, h1, wordsAux_last sp _ (by simp [hwne])]
      simp
    | cons x ws' =>
      rw [joinWords,
        wordsAux_append_nonspace sp w hwns (' ' :: joinWords (x :: ws')) [],
        wordsAux_space sp ' ' hsp _ _ (by simp [hwne]),
        ih (fun w hw => h w (by simp [hw]))]
      simp

/-- Rebuilding a `String` from its characters is the identity. -/
theorem string_mk_data (s : String) : String.mk s.data = s := rfl

/-- C8: tokenizer round trip — tokenizing the single-space join of a
token list produced by `tokenize_string` yields exactly that token list. -/
theorem tokenize_roundtrip (T : String) :
    tokenize_string (joinTokens (tokenize_string T)) = tokenize_string T := by
  have hchars := tokenize_string_chars T
  rcases hts : tokenize_string T with _ | ⟨t, ts⟩
  · show tokenize_string "" = []
    rfl
  · rw [hts] at hchars
    have htne : t.data ≠ [] := (hchars t (by simp)).1
    have hne : joinTokens (t :: ts) ≠ "" := by
      intro h
      have h2 := congrArg String.data h
      simp only [joinTokens] at h2
      exact joinWords_ne_nil t.data (ts.map String.data) htne (by simpa using h2)
    unfold tokenize_string
    rw [if_neg hne]
    show ((pySplitWs (normChars (joinWords ((t :: ts).map String.data)))).filter
        (fun w => !w.isEmpty && w.all pyIsAlnumAscii)).map
        (fun w => String.mk (w.map pyLower)) = t :: ts
    have hnorm : normChars (joinWords ((t :: ts).map String.data)) =
        joinWords ((t :: ts).map String.data) := by
      apply normChars_fixed
      intro c hc
      rcases joinWords_chars _ c hc with ⟨w, hw, hcw⟩ | hsp
      · obtain ⟨s, hs, rfl⟩ := List.mem_map.mp hw
        exact Or.inl ((hchars s hs).2 c hcw).1
      · exact Or.inr hsp
    rw [hnorm]
    have hwords : pySplitWs (joinWords ((t :: ts).map String.data)) =
        (t :: ts).map String.data := by
      unfold pySplitWs
      apply words_joinWords isPySpace rfl
      intro w hw
      obtain ⟨s, hs, rfl⟩ := List.mem_map.mp hw
      exact ⟨(hchars s hs).1, fun c hc => ((hchars s hs).2 c hc).2.2⟩
    rw [hwords]
    have hfilter : ((t :: ts).map String.data).filter
        (fun w => !w.isEmpty && w.all pyIsAlnumAscii) =
        (t :: ts).map String.data := by
      apply List.filter_eq_self.mpr
      intro w hw
      obtain ⟨s, hs, rfl⟩ := List.mem_map.mp hw
      have h1 : s.data ≠ [] := (hchars s hs).1
      have h2 : ∀ c ∈ s.data, pyIsAlnumAscii c = true :=
        fun c hc => ((hchars s hs).2 c hc).1
      simp only [Bool.and_eq_true, Bool.not_eq_eq_eq_not, Bool.not_true,
        List.isEmpty_eq_false, List.all_eq_true]
      exact ⟨h1, h2⟩
    rw [hfilter, List.map_map]
    have hid : ∀ s ∈ t :: ts,
        (fun w => String.mk (List.map pyLower w)) (String.data s) = s := by
      intro s hs
      have hmap := List.map_congr_left (l := s.data) (f := pyLower)
        (g := fun c => c) (fun c hc => ((hchars s hs).2 c hc).2.1)
      have : s.data.map pyLower = s.data := by simpa using hmap
      simp only [this, string_mk_data]
    calc (t :: ts).map ((fun w => String.mk (List.map pyLower w)) ∘ String.data)
        = (t :: ts).map id := List.map_congr_left (fun s hs => hid s hs)
      _ = t :: ts := List.map_id _

end Crawler
